import Mathlib

/-!
Verification of the NumberPlate pipeline.

This file is a shallow embedding of the two Python stages of the project:
the capture loop (`Scripts/improved_script.py`) and the offline OCR /
record-keeping pipeline (`Scripts/ocr2.py`, with the near-duplicate
`Scripts/tempCodeRunnerFile.py` sharing the preprocessing steps).

Text is modelled as `List Char`, binary images as `List Nat` of pixel
values, the spreadsheet as a `List (List String)` of rows, and the
capture-loop state as an explicit record threaded through a step function.
Fallible external calls (OCR, spreadsheet read) are modelled as `Except` /
`Bool` parameters, mirroring the `try/except` boundaries of the source.
-/

namespace NumberPlate

/-! ## Character classes and text cleaning (`clean_text`, ocr2.py lines 41-45) -/

/-- The character class `[A-Z]` (code points 65-90). -/
def isUpperAZ (c : Char) : Bool := 65 ≤ c.toNat && c.toNat ≤ 90

/-- The character class `[0-9]` (code points 48-57). -/
def isDigit09 (c : Char) : Bool := 48 ≤ c.toNat && c.toNat ≤ 57

/-- The class `[A-Z0-9]` kept by `re.sub(r'[^A-Z0-9]', '', text)`. -/
def keepChar (c : Char) : Bool := isUpperAZ c || isDigit09 c

/-- ASCII uppercasing of one character, as `str.upper()` acts on the
ASCII range: `a`-`z` (97-122) maps down by 32, everything else is kept. -/
def pyUpper (c : Char) : Char :=
  if 97 ≤ c.toNat && c.toNat ≤ 122 then Char.ofNat (c.toNat - 32) else c

/-- Function `clean_text` (ocr2.py lines 41-45): uppercase the input, then delete
every character outside `A-Z0-9`. -/
def clean_text (s : List Char) : List Char :=
  (s.map pyUpper).filter keepChar

theorem pyUpper_of_keep (c : Char) (h : keepChar c = true) : pyUpper c = c := by
  simp only [keepChar, isUpperAZ, isDigit09, Bool.or_eq_true, Bool.and_eq_true,
    decide_eq_true_eq] at h
  simp only [pyUpper, Bool.and_eq_true, decide_eq_true_eq]
  rw [if_neg]
  omega

theorem map_pyUpper_of_keep (t : List Char) (h : ∀ c ∈ t, keepChar c = true) :
    t.map pyUpper = t := by
  induction t with
  | nil => rfl
  | cons c rest ih =>
    simp only [List.map_cons]
    rw [pyUpper_of_keep c (h c (List.mem_cons_self c rest)),
      ih (fun x hx => h x (List.mem_cons_of_mem c hx))]

theorem filter_keep_of_keep (t : List Char) (h : ∀ c ∈ t, keepChar c = true) :
    t.filter keepChar = t :=
  List.filter_eq_self.mpr h

theorem mem_clean_text_keep (s : List Char) :
    ∀ c ∈ clean_text s, keepChar c = true := by
  intro c hc
  exact (List.mem_filter.mp hc).2

/-- C3: cleaning uppercases and then keeps exactly the `A-Z0-9` characters:
every surviving character is an ASCII uppercase letter or digit (in
particular never a lowercase letter, space, or punctuation), and the
surviving characters appear in their original relative order (the cleaned
string is a sublist of the uppercased input). -/
theorem clean_text_chars_and_order (s : List Char) :
    (∀ c ∈ clean_text s,
      (65 ≤ c.toNat ∧ c.toNat ≤ 90) ∨ (48 ≤ c.toNat ∧ c.toNat ≤ 57)) ∧
    List.Sublist (clean_text s) (s.map pyUpper) := by
  constructor
  · intro c hc
    have h := mem_clean_text_keep s c hc
    simpa only [keepChar, isUpperAZ, isDigit09, Bool.or_eq_true, Bool.and_eq_true,
      decide_eq_true_eq] using h
  · exact List.filter_sublist (s.map pyUpper)

/-- Witness for `clean_text_chars_and_order` at the concrete input "aB 3!". -/
theorem clean_text_chars_and_order_witness :
    ((65 ≤ 'B'.toNat ∧ 'B'.toNat ≤ 90) ∨ (48 ≤ 'B'.toNat ∧ 'B'.toNat ≤ 57)) ∧
    List.Sublist (clean_text ['a', 'B', ' ', '3', '!'])
      (['a', 'B', ' ', '3', '!'].map pyUpper) :=
  ⟨(clean_text_chars_and_order ['a', 'B', ' ', '3', '!']).1 'B' (by decide),
   (clean_text_chars_and_order ['a', 'B', ' ', '3', '!']).2⟩

/-- C10: cleaning is idempotent, because a first pass leaves only `A-Z0-9`
characters, which uppercasing and the filter both fix. -/
theorem clean_text_idempotent (s : List Char) :
    clean_text (clean_text s) = clean_text s := by
  show ((clean_text s).map pyUpper).filter keepChar = clean_text s
  rw [map_pyUpper_of_keep _ (mem_clean_text_keep s),
    filter_keep_of_keep _ (mem_clean_text_keep s)]

/-! ## The plate grammar and `extract_plate_pattern` (ocr2.py lines 48-59)

The source calls `re.search(r'[A-Z]{2}\d{1,2}[A-Z]{1,2}\d{3,4}', cleaned)`.
We embed the regex engine's behaviour on this fixed pattern: try each start
position left to right, and at a position match the four groups with greedy
backtracking (each bounded repetition tries its larger count first and falls
back to the smaller one if the rest of the pattern fails). -/

/-- Take exactly `n` leading characters satisfying `p`, returning them and
the remainder, or `none` if fewer than `n` such characters lead the list. -/
def takeSeg (p : Char → Bool) : Nat → List Char → Option (List Char × List Char)
  | 0, cs => some ([], cs)
  | _ + 1, [] => none
  | n + 1, c :: cs =>
    if p c then (takeSeg p n cs).map (fun x => (c :: x.1, x.2)) else none

/-- Match the final group `\d{3,4}` greedily (4 first, then 3) at the head
of `r`, returning the accumulated match `acc ++ digits` on success. -/
def matchTail (r : List Char) (acc : List Char) : Option (List Char) :=
  match takeSeg isDigit09 4 r with
  | some (d, _) => some (acc ++ d)
  | none =>
    match takeSeg isDigit09 3 r with
    | some (d, _) => some (acc ++ d)
    | none => none

/-- The one-letter fallback of the group `[A-Z]{1,2}`. -/
def matchLet1 (r : List Char) (acc : List Char) : Option (List Char) :=
  match takeSeg isUpperAZ 1 r with
  | some (c, r3) => matchTail r3 (acc ++ c)
  | none => none

/-- Match `[A-Z]{1,2}\d{3,4}` greedily at the head of `r`: two letters
first, falling back to one letter if the rest of the pattern fails. -/
def matchLet (r : List Char) (acc : List Char) : Option (List Char) :=
  match takeSeg isUpperAZ 2 r with
  | some (c, r3) =>
    match matchTail r3 (acc ++ c) with
    | some m => some m
    | none => matchLet1 r acc
  | none => matchLet1 r acc

/-- The one-digit fallback of the group `\d{1,2}`. -/
def matchDig1 (r : List Char) (acc : List Char) : Option (List Char) :=
  match takeSeg isDigit09 1 r with
  | some (b, r2) => matchLet r2 (acc ++ b)
  | none => none

/-- Match `\d{1,2}[A-Z]{1,2}\d{3,4}` greedily at the head of `r`: two
digits first, falling back to one digit if the rest of the pattern fails. -/
def matchDig (r : List Char) (acc : List Char) : Option (List Char) :=
  match takeSeg isDigit09 2 r with
  | some (b, r2) =>
    match matchLet r2 (acc ++ b) with
    | some m => some m
    | none => matchDig1 r acc
  | none => matchDig1 r acc

/-- Match the whole pattern `[A-Z]{2}\d{1,2}[A-Z]{1,2}\d{3,4}` anchored at
the head of `cs`, returning the matched substring. -/
def matchAt (cs : List Char) : Option (List Char) :=
  match takeSeg isUpperAZ 2 cs with
  | some (a, r1) => matchDig r1 a
  | none => none

/-- Search as `re.search` does over the fixed pattern: try `matchAt` at each start
position, left to right, and return the first success. -/
def searchPattern : List Char → Option (List Char)
  | [] => none
  | c :: rest =>
    match matchAt (c :: rest) with
    | some m => some m
    | none => searchPattern rest

/-- Function `extract_plate_pattern` (ocr2.py lines 48-59): clean the text, search
it for the plate grammar, and return the match (or `None`). -/
def extract_plate_pattern (text : List Char) : Option (List Char) :=
  searchPattern (clean_text text)

/-- A string matches the plate grammar when it splits into 2 uppercase
letters, 1-2 digits, 1-2 uppercase letters, and 3-4 digits. -/
def GrammarMatch (m : List Char) : Prop :=
  ∃ a b c d : List Char,
    m = a ++ b ++ c ++ d ∧
    a.length = 2 ∧
    (1 ≤ b.length ∧ b.length ≤ 2) ∧
    (1 ≤ c.length ∧ c.length ≤ 2) ∧
    (3 ≤ d.length ∧ d.length ≤ 4) ∧
    (∀ x ∈ a, isUpperAZ x = true) ∧
    (∀ x ∈ b, isDigit09 x = true) ∧
    (∀ x ∈ c, isUpperAZ x = true) ∧
    (∀ x ∈ d, isDigit09 x = true)

theorem digit_not_upper (x : Char) (h : isDigit09 x = true) : isUpperAZ x = false := by
  simp only [isDigit09, Bool.and_eq_true, decide_eq_true_eq] at h
  simp only [isUpperAZ]
  have h65 : ¬ (65 ≤ x.toNat) := by omega
  simp [h65]

theorem upper_not_digit (x : Char) (h : isUpperAZ x = true) : isDigit09 x = false := by
  simp only [isUpperAZ, Bool.and_eq_true, decide_eq_true_eq] at h
  simp only [isDigit09]
  have h57 : ¬ (x.toNat ≤ 57) := by omega
  simp [h57]

theorem takeSeg_sound (p : Char → Bool) :
    ∀ (n : Nat) (cs x r : List Char), takeSeg p n cs = some (x, r) →
      cs = x ++ r ∧ x.length = n ∧ ∀ a ∈ x, p a = true := by
  intro n
  induction n with
  | zero =>
    intro cs x r h
    simp only [takeSeg, Option.some.injEq, Prod.mk.injEq] at h
    obtain ⟨h1, h2⟩ := h
    subst h1; subst h2
    simp
  | succ k ih =>
    intro cs x r h
    match cs with
    | [] => simp [takeSeg] at h
    | c :: cs' =>
      simp only [takeSeg] at h
      by_cases hp : p c
      · rw [if_pos hp] at h
        cases htk : takeSeg p k cs' with
        | none => rw [htk] at h; simp at h
        | some y =>
          rw [htk] at h
          simp only [Option.map_some', Option.some.injEq, Prod.mk.injEq] at h
          obtain ⟨hx, hr⟩ := h
          obtain ⟨hcs, hlen, hall⟩ := ih cs' y.1 y.2 (by rw [htk])
          subst hx; subst hr
          refine ⟨by rw [hcs]; rfl, by simp [hlen], ?_⟩
          intro a ha
          rcases List.mem_cons.mp ha with h1 | h2
          · subst h1; exact hp
          · exact hall a h2
      · rw [if_neg hp] at h
        exact absurd h (by simp)

theorem takeSeg_complete (p : Char → Bool) :
    ∀ (x r : List Char), (∀ a ∈ x, p a = true) →
      takeSeg p x.length (x ++ r) = some (x, r) := by
  intro x
  induction x with
  | nil => intro r _; rfl
  | cons c x' ih =>
    intro r h
    simp only [List.length_cons, List.cons_append, takeSeg]
    rw [if_pos (h c (List.mem_cons_self c x')), List.append_eq,
      ih r (fun a ha => h a (List.mem_cons_of_mem c ha))]
    rfl

/-- A `takeSeg` for two characters fails when the list's second character
falls outside the class. -/
theorem takeSeg_two_none (p : Char → Bool) (c0 c1 : Char) (t : List Char)
    (h : p c1 = false) : takeSeg p 2 (c0 :: c1 :: t) = none := by
  by_cases hp : p c0
  · simp [takeSeg, hp, h]
  · simp [takeSeg, hp]

theorem matchTail_sound (r acc m : List Char) (h : matchTail r acc = some m) :
    ∃ d suf, r = d ++ suf ∧ m = acc ++ d ∧ 3 ≤ d.length ∧ d.length ≤ 4 ∧
      ∀ x ∈ d, isDigit09 x = true := by
  unfold matchTail at h
  cases h4 : takeSeg isDigit09 4 r with
  | some y =>
    rw [h4] at h
    simp only [Option.some.injEq] at h
    obtain ⟨hr, hlen, hall⟩ := takeSeg_sound isDigit09 4 r y.1 y.2 (by rw [h4])
    exact ⟨y.1, y.2, hr, h.symm, by omega, by omega, hall⟩
  | none =>
    rw [h4] at h
    cases h3 : takeSeg isDigit09 3 r with
    | some y =>
      rw [h3] at h
      simp only [Option.some.injEq] at h
      obtain ⟨hr, hlen, hall⟩ := takeSeg_sound isDigit09 3 r y.1 y.2 (by rw [h3])
      exact ⟨y.1, y.2, hr, h.symm, by omega, by omega, hall⟩
    | none => rw [h3] at h; exact absurd h (by simp)

theorem matchTail_complete (d suf acc : List Char) (h3 : 3 ≤ d.length)
    (h4 : d.length ≤ 4) (hd : ∀ x ∈ d, isDigit09 x = true) :
    ∃ m, matchTail (d ++ suf) acc = some m := by
  unfold matchTail
  cases htk : takeSeg isDigit09 4 (d ++ suf) with
  | some y => exact ⟨acc ++ y.1, rfl⟩
  | none =>
    have hlen : d.length = 3 := by
      rcases Nat.lt_or_ge d.length 4 with hlt | hge
      · omega
      · exfalso
        have h4' : d.length = 4 := by omega
        have := takeSeg_complete isDigit09 d suf hd
        rw [h4'] at this
        rw [this] at htk
        exact absurd htk (by simp)
    have hc := takeSeg_complete isDigit09 d suf hd
    rw [hlen] at hc
    rw [hc]
    exact ⟨acc ++ d, rfl⟩

theorem matchLet1_sound (r acc m : List Char) (h : matchLet1 r acc = some m) :
    ∃ c d suf, r = c ++ d ++ suf ∧ m = acc ++ (c ++ d) ∧ c.length = 1 ∧
      3 ≤ d.length ∧ d.length ≤ 4 ∧
      (∀ x ∈ c, isUpperAZ x = true) ∧ (∀ x ∈ d, isDigit09 x = true) := by
  unfold matchLet1 at h
  cases h1 : takeSeg isUpperAZ 1 r with
  | some y =>
    obtain ⟨c1, r3⟩ := y
    rw [h1] at h
    obtain ⟨hr, hclen, hcall⟩ := takeSeg_sound isUpperAZ 1 r c1 r3 h1
    obtain ⟨d, suf, hr3, hm, hd3, hd4, hdall⟩ := matchTail_sound r3 (acc ++ c1) m h
    refine ⟨c1, d, suf, ?_, ?_, hclen, hd3, hd4, hcall, hdall⟩
    · rw [hr, hr3, List.append_assoc]
    · rw [hm, List.append_assoc]
  | none => rw [h1] at h; exact absurd h (by simp)

theorem matchLet_sound (r acc m : List Char) (h : matchLet r acc = some m) :
    ∃ c d suf, r = c ++ d ++ suf ∧ m = acc ++ (c ++ d) ∧
      1 ≤ c.length ∧ c.length ≤ 2 ∧ 3 ≤ d.length ∧ d.length ≤ 4 ∧
      (∀ x ∈ c, isUpperAZ x = true) ∧ (∀ x ∈ d, isDigit09 x = true) := by
  unfold matchLet at h
  cases h2 : takeSeg isUpperAZ 2 r with
  | some y =>
    obtain ⟨c2, r3⟩ := y
    rw [h2] at h
    dsimp only at h
    cases hmt : matchTail r3 (acc ++ c2) with
    | some m' =>
      rw [hmt] at h
      simp only [Option.some.injEq] at h
      subst h
      obtain ⟨hr, hclen, hcall⟩ := takeSeg_sound isUpperAZ 2 r c2 r3 h2
      obtain ⟨d, suf, hr3, hm, hd3, hd4, hdall⟩ := matchTail_sound r3 (acc ++ c2) m' hmt
      refine ⟨c2, d, suf, ?_, ?_, by omega, by omega, hd3, hd4, hcall, hdall⟩
      · rw [hr, hr3, List.append_assoc]
      · rw [hm, List.append_assoc]
    | none =>
      rw [hmt] at h
      obtain ⟨c, d, suf, hr, hm, hclen, hd3, hd4, hcall, hdall⟩ := matchLet1_sound r acc m h
      exact ⟨c, d, suf, hr, hm, by omega, by omega, hd3, hd4, hcall, hdall⟩
  | none =>
    rw [h2] at h
    obtain ⟨c, d, suf, hr, hm, hclen, hd3, hd4, hcall, hdall⟩ := matchLet1_sound r acc m h
    exact ⟨c, d, suf, hr, hm, by omega, by omega, hd3, hd4, hcall, hdall⟩

theorem matchLet_complete (c d suf acc : List Char)
    (hc1 : 1 ≤ c.length) (hc2 : c.length ≤ 2)
    (hcall : ∀ x ∈ c, isUpperAZ x = true)
    (hd3 : 3 ≤ d.length) (hd4 : d.length ≤ 4)
    (hdall : ∀ x ∈ d, isDigit09 x = true) :
    ∃ m, matchLet (c ++ (d ++ suf)) acc = some m := by
  unfold matchLet
  by_cases hlen : c.length = 2
  · have htk : takeSeg isUpperAZ 2 (c ++ (d ++ suf)) = some (c, d ++ suf) := by
      have := takeSeg_complete isUpperAZ c (d ++ suf) hcall
      rw [hlen] at this
      exact this
    rw [htk]
    dsimp only
    obtain ⟨m', hm'⟩ := matchTail_complete d suf (acc ++ c) hd3 hd4 hdall
    rw [hm']
    exact ⟨m', rfl⟩
  · have hlen1 : c.length = 1 := by omega
    obtain ⟨c0, hc0⟩ := List.length_eq_one.mp hlen1
    subst hc0
    cases d with
    | nil => simp at hd3
    | cons d0 d' =>
      have hnu : isUpperAZ d0 = false :=
        digit_not_upper d0 (hdall d0 (List.mem_cons_self d0 d'))
      have htk2 : takeSeg isUpperAZ 2 ([c0] ++ ((d0 :: d') ++ suf)) = none :=
        takeSeg_two_none isUpperAZ c0 d0 (d' ++ suf) hnu
      rw [htk2]
      dsimp only
      unfold matchLet1
      have htk1 : takeSeg isUpperAZ 1 ([c0] ++ ((d0 :: d') ++ suf)) =
          some ([c0], (d0 :: d') ++ suf) :=
        takeSeg_complete isUpperAZ [c0] ((d0 :: d') ++ suf) hcall
      rw [htk1]
      dsimp only
      exact matchTail_complete (d0 :: d') suf (acc ++ [c0]) hd3 hd4 hdall

theorem matchDig1_sound (r acc m : List Char) (h : matchDig1 r acc = some m) :
    ∃ b c d suf, r = b ++ c ++ d ++ suf ∧ m = acc ++ (b ++ (c ++ d)) ∧
      b.length = 1 ∧ 1 ≤ c.length ∧ c.length ≤ 2 ∧
      3 ≤ d.length ∧ d.length ≤ 4 ∧
      (∀ x ∈ b, isDigit09 x = true) ∧ (∀ x ∈ c, isUpperAZ x = true) ∧
      (∀ x ∈ d, isDigit09 x = true) := by
  unfold matchDig1 at h
  cases h1 : takeSeg isDigit09 1 r with
  | some y =>
    obtain ⟨b1, r2⟩ := y
    rw [h1] at h
    dsimp only at h
    obtain ⟨hr, hblen, hball⟩ := takeSeg_sound isDigit09 1 r b1 r2 h1
    obtain ⟨c, d, suf, hr2, hm, hc1, hc2, hd3, hd4, hcall, hdall⟩ :=
      matchLet_sound r2 (acc ++ b1) m h
    refine ⟨b1, c, d, suf, ?_, ?_, hblen, hc1, hc2, hd3, hd4, hball, hcall, hdall⟩
    · rw [hr, hr2]; simp [List.append_assoc]
    · rw [hm, List.append_assoc]
  | none => rw [h1] at h; exact absurd h (by simp)

theorem matchDig_sound (r acc m : List Char) (h : matchDig r acc = some m) :
    ∃ b c d suf, r = b ++ c ++ d ++ suf ∧ m = acc ++ (b ++ (c ++ d)) ∧
      1 ≤ b.length ∧ b.length ≤ 2 ∧ 1 ≤ c.length ∧ c.length ≤ 2 ∧
      3 ≤ d.length ∧ d.length ≤ 4 ∧
      (∀ x ∈ b, isDigit09 x = true) ∧ (∀ x ∈ c, isUpperAZ x = true) ∧
      (∀ x ∈ d, isDigit09 x = true) := by
  unfold matchDig at h
  cases h2 : takeSeg isDigit09 2 r with
  | some y =>
    obtain ⟨b2, r2⟩ := y
    rw [h2] at h
    dsimp only at h
    cases hml : matchLet r2 (acc ++ b2) with
    | some m' =>
      rw [hml] at h
      simp only [Option.some.injEq] at h
      subst h
      obtain ⟨hr, hblen, hball⟩ := takeSeg_sound isDigit09 2 r b2 r2 h2
      obtain ⟨c, d, suf, hr2, hm, hc1, hc2, hd3, hd4, hcall, hdall⟩ :=
        matchLet_sound r2 (acc ++ b2) m' hml
      refine ⟨b2, c, d, suf, ?_, ?_, by omega, by omega, hc1, hc2, hd3, hd4,
        hball, hcall, hdall⟩
      · rw [hr, hr2]; simp [List.append_assoc]
      · rw [hm, List.append_assoc]
    | none =>
      rw [hml] at h
      obtain ⟨b, c, d, suf, hr, hm, hblen, hc1, hc2, hd3, hd4, hball, hcall, hdall⟩ :=
        matchDig1_sound r acc m h
      exact ⟨b, c, d, suf, hr, hm, by omega, by omega, hc1, hc2, hd3, hd4,
        hball, hcall, hdall⟩
  | none =>
    rw [h2] at h
    obtain ⟨b, c, d, suf, hr, hm, hblen, hc1, hc2, hd3, hd4, hball, hcall, hdall⟩ :=
      matchDig1_sound r acc m h
    exact ⟨b, c, d, suf, hr, hm, by omega, by omega, hc1, hc2, hd3, hd4,
      hball, hcall, hdall⟩

theorem matchDig_complete (b c d suf acc : List Char)
    (hb1 : 1 ≤ b.length) (hb2 : b.length ≤ 2)
    (hball : ∀ x ∈ b, isDigit09 x = true)
    (hc1 : 1 ≤ c.length) (hc2 : c.length ≤ 2)
    (hcall : ∀ x ∈ c, isUpperAZ x = true)
    (hd3 : 3 ≤ d.length) (hd4 : d.length ≤ 4)
    (hdall : ∀ x ∈ d, isDigit09 x = true) :
    ∃ m, matchDig (b ++ (c ++ (d ++ suf))) acc = some m := by
  unfold matchDig
  by_cases hlen : b.length = 2
  · have htk : takeSeg isDigit09 2 (b ++ (c ++ (d ++ suf))) = some (b, c ++ (d ++ suf)) := by
      have := takeSeg_complete isDigit09 b (c ++ (d ++ suf)) hball
      rw [hlen] at this
      exact this
    rw [htk]
    dsimp only
    obtain ⟨m', hm'⟩ := matchLet_complete c d suf (acc ++ b) hc1 hc2 hcall hd3 hd4 hdall
    rw [hm']
    exact ⟨m', rfl⟩
  · have hlen1 : b.length = 1 := by omega
    obtain ⟨b0, hb0⟩ := List.length_eq_one.mp hlen1
    subst hb0
    cases c with
    | nil => simp at hc1
    | cons c0 c' =>
      have hnd : isDigit09 c0 = false :=
        upper_not_digit c0 (hcall c0 (List.mem_cons_self c0 c'))
      have htk2 : takeSeg isDigit09 2 ([b0] ++ ((c0 :: c') ++ (d ++ suf))) = none :=
        takeSeg_two_none isDigit09 b0 c0 (c' ++ (d ++ suf)) hnd
      rw [htk2]
      dsimp only
      unfold matchDig1
      have htk1 : takeSeg isDigit09 1 ([b0] ++ ((c0 :: c') ++ (d ++ suf))) =
          some ([b0], (c0 :: c') ++ (d ++ suf)) :=
        takeSeg_complete isDigit09 [b0] ((c0 :: c') ++ (d ++ suf)) hball
      rw [htk1]
      dsimp only
      exact matchLet_complete (c0 :: c') d suf (acc ++ [b0]) hc1 hc2 hcall hd3 hd4 hdall

theorem matchAt_sound (cs m : List Char) (h : matchAt cs = some m) :
    (∃ suf, cs = m ++ suf) ∧ GrammarMatch m := by
  unfold matchAt at h
  cases h2 : takeSeg isUpperAZ 2 cs with
  | some y =>
    obtain ⟨a, r1⟩ := y
    rw [h2] at h
    dsimp only at h
    obtain ⟨hcs, halen, haall⟩ := takeSeg_sound isUpperAZ 2 cs a r1 h2
    obtain ⟨b, c, d, suf, hr1, hm, hb1, hb2, hc1, hc2, hd3, hd4, hball, hcall, hdall⟩ :=
      matchDig_sound r1 a m h
    constructor
    · exact ⟨suf, by rw [hcs, hr1, hm]; simp [List.append_assoc]⟩
    · exact ⟨a, b, c, d, by rw [hm]; simp [List.append_assoc], halen,
        ⟨hb1, hb2⟩, ⟨hc1, hc2⟩, ⟨hd3, hd4⟩, haall, hball, hcall, hdall⟩
  | none => rw [h2] at h; exact absurd h (by simp)

theorem matchAt_complete (m suf : List Char) (hg : GrammarMatch m) :
    ∃ m', matchAt (m ++ suf) = some m' := by
  obtain ⟨a, b, c, d, hm, halen, ⟨hb1, hb2⟩, ⟨hc1, hc2⟩, ⟨hd3, hd4⟩,
    haall, hball, hcall, hdall⟩ := hg
  subst hm
  simp only [List.append_assoc]
  unfold matchAt
  have htk : takeSeg isUpperAZ 2 (a ++ (b ++ (c ++ (d ++ suf)))) =
      some (a, b ++ (c ++ (d ++ suf))) := by
    have := takeSeg_complete isUpperAZ a (b ++ (c ++ (d ++ suf))) haall
    rw [halen] at this
    exact this
  rw [htk]
  dsimp only
  exact matchDig_complete b c d suf a hb1 hb2 hball hc1 hc2 hcall hd3 hd4 hdall

theorem grammarMatch_length (m : List Char) (h : GrammarMatch m) : 7 ≤ m.length := by
  obtain ⟨a, b, c, d, hm, halen, ⟨hb1, _⟩, ⟨hc1, _⟩, ⟨hd3, _⟩, _⟩ := h
  subst hm
  simp only [List.length_append]
  omega

theorem searchPattern_sound :
    ∀ (cs m : List Char), searchPattern cs = some m →
      GrammarMatch m ∧
      ∃ pre suf, cs = pre ++ m ++ suf ∧
        ∀ pre' m' suf', cs = pre' ++ m' ++ suf' → GrammarMatch m' →
          pre.length ≤ pre'.length := by
  intro cs
  induction cs with
  | nil => intro m h; simp [searchPattern] at h
  | cons x rest ih =>
    intro m h
    simp only [searchPattern] at h
    cases hma : matchAt (x :: rest) with
    | some m0 =>
      rw [hma] at h
      dsimp only at h
      simp only [Option.some.injEq] at h
      subst h
      obtain ⟨⟨suf, hsuf⟩, hg⟩ := matchAt_sound (x :: rest) m0 hma
      refine ⟨hg, [], suf, by simpa using hsuf, ?_⟩
      intro pre' m' suf' _ _
      simp
    | none =>
      rw [hma] at h
      dsimp only at h
      obtain ⟨hg, pre, suf, heq, hmin⟩ := ih m h
      refine ⟨hg, x :: pre, suf, by simp [heq, List.append_assoc], ?_⟩
      intro pre' m' suf' heq' hg'
      cases pre' with
      | nil =>
        simp only [List.nil_append] at heq'
        obtain ⟨m'', hm''⟩ := matchAt_complete m' suf' hg'
        rw [heq', hm''] at hma
        exact absurd hma (by simp)
      | cons y pre'' =>
        simp only [List.cons_append, List.cons.injEq] at heq'
        have := hmin pre'' m' suf' heq'.2 hg'
        simp only [List.length_cons]
        omega

theorem searchPattern_none :
    ∀ (cs : List Char), searchPattern cs = none →
      ∀ pre m suf, cs = pre ++ m ++ suf → ¬ GrammarMatch m := by
  intro cs
  induction cs with
  | nil =>
    intro _ pre m suf heq hg
    have h7 := grammarMatch_length m hg
    have hlen := congrArg List.length heq
    simp only [List.length_nil, List.length_append] at hlen
    omega
  | cons x rest ih =>
    intro h pre m suf heq hg
    simp only [searchPattern] at h
    cases hma : matchAt (x :: rest) with
    | some m0 => rw [hma] at h; dsimp only at h; exact absurd h (by simp)
    | none =>
      rw [hma] at h
      dsimp only at h
      cases pre with
      | nil =>
        simp only [List.nil_append] at heq
        obtain ⟨m'', hm''⟩ := matchAt_complete m suf hg
        rw [heq, hm''] at hma
        exact absurd hma (by simp)
      | cons y pre' =>
        simp only [List.cons_append, List.cons.injEq] at heq
        exact ih h pre' m suf heq.2 hg

/-- C2: `extract_plate_pattern` searches the cleaned string (not anchored)
and returns the leftmost grammar match: a returned string is a grammar
match occurring in the cleaned string at the earliest position of any
grammar match, and `none` is returned exactly when no substring of the
cleaned string matches; in particular `MH15GF5187` yields `MH15GF5187`,
`MH15.GF5187` yields `MH15GF5187` after cleaning, and `ABCDEF` yields
`none`. -/
theorem extract_plate_pattern_spec (s : List Char) :
    (∀ m, extract_plate_pattern s = some m →
      GrammarMatch m ∧
      ∃ pre suf, clean_text s = pre ++ m ++ suf ∧
        ∀ pre' m' suf', clean_text s = pre' ++ m' ++ suf' → GrammarMatch m' →
          pre.length ≤ pre'.length) ∧
    (extract_plate_pattern s = none →
      ∀ pre m suf, clean_text s = pre ++ m ++ suf → ¬ GrammarMatch m) ∧
    extract_plate_pattern "MH15GF5187".data = some "MH15GF5187".data ∧
    extract_plate_pattern "MH15.GF5187".data = some "MH15GF5187".data ∧
    extract_plate_pattern "ABCDEF".data = none := by
  refine ⟨?_, ?_, by decide, by decide, by decide⟩
  · intro m h
    exact searchPattern_sound (clean_text s) m h
  · intro h
    exact searchPattern_none (clean_text s) h

/-- Witness for `extract_plate_pattern_spec`: at the concrete inputs, the
returned match `MH15GF5187` is a grammar match, and no substring of the
cleaned `ABCDEF` matches the grammar. -/
theorem extract_plate_pattern_spec_witness :
    GrammarMatch "MH15GF5187".data ∧ ¬ GrammarMatch "ABCDEF".data :=
  ⟨((extract_plate_pattern_spec "MH15GF5187".data).1 "MH15GF5187".data
      (by decide)).1,
   (extract_plate_pattern_spec "ABCDEF".data).2.1 (by decide)
     [] "ABCDEF".data [] (by decide)⟩

/-! ## The capture loop (improved_script.py)

One tick of the `while True` loop: detect rectangles, filter by area,
keep the last passing rectangle as the current candidate (`img_roi`),
then handle the polled key (`s` saves the candidate, `q` quits). -/

/-- An axis-aligned detection rectangle `(x, y, w, h)`. -/
structure Rect where
  x : Nat
  y : Nat
  w : Nat
  h : Nat
deriving DecidableEq

/-- Constant `min_area = 500` (improved_script.py line 17). -/
def min_area : Nat := 500

/-- The loop-body test `area > min_area` (improved_script.py line 33),
with `area = w * h` (line 32). -/
def passesArea (r : Rect) : Bool := min_area < r.w * r.h

/-- The sub-sequence of detected rectangles that the loop body processes
(annotates and offers as candidate), in detection order. -/
def filteredPlates (plates : List Rect) : List Rect :=
  plates.filter passesArea

/-- The candidate (`img_roi`) at the end of one tick's detection loop:
`img_roi = None` at the start of every tick (line 29) — the previous
tick's value `prevRoi` is discarded — and each passing rectangle
overwrites it, so the last passing rectangle wins. -/
def tickRoiFrom (_prevRoi : Option Rect) (plates : List Rect) : Option Rect :=
  plates.foldl (fun roi r => if passesArea r then some r else roi) none

/-- Filename `plates/plate_<n>.jpg` (improved_script.py line 51). -/
def fileName (n : Nat) : String :=
  "plates/plate_" ++ toString n ++ ".jpg"

/-- The mutable state of the capture session: the save counter `count`,
the image files written so far in order, whether the loop is still
running, and the current `img_roi`. -/
structure SessionState where
  count : Nat
  files : List String
  running : Bool
  img_roi : Option Rect
deriving DecidableEq

/-- Initial state: `count = 0` before the loop (improved_script.py line 18). -/
def initState : SessionState :=
  { count := 0, files := [], running := true, img_roi := none }

/-- The key code of `s` (save). -/
def keyS : Nat := 115

/-- The key code of `q` (quit). -/
def keyQ : Nat := 113

/-- One tick of the capture loop (improved_script.py lines 21-55): compute
the candidate, then on `s` with a non-`None` candidate write
`plates/plate_<count>.jpg` and increment `count`; on `q` stop. -/
def tickStep (st : SessionState) (plates : List Rect) (key : Nat) : SessionState :=
  if st.running then
    if key = keyS ∧ (tickRoiFrom st.img_roi plates).isSome then
      { st with
        img_roi := tickRoiFrom st.img_roi plates
        count := st.count + 1
        files := st.files ++ [fileName st.count] }
    else if key = keyQ then
      { st with img_roi := tickRoiFrom st.img_roi plates, running := false }
    else
      { st with img_roi := tickRoiFrom st.img_roi plates }
  else st

/-- Run a list of ticks (each a detector output and a polled key) from a
given state. -/
def runFrom (ticks : List (List Rect × Nat)) (st : SessionState) : SessionState :=
  ticks.foldl (fun s t => tickStep s t.1 t.2) st

/-- Run a capture session from the initial state. -/
def runSession (ticks : List (List Rect × Nat)) : SessionState :=
  runFrom ticks initState

/-- C1 counterexample: a rectangle of area exactly `min_area` (25 × 20 =
500) has `area ≥ minArea`, yet the filter `area > min_area` excludes it,
contradicting the claim that every rectangle with `area ≥ minArea` is
retained. -/
theorem area_filter_boundary_cex :
    min_area ≤ (Rect.mk 0 0 25 20).w * (Rect.mk 0 0 25 20).h ∧
    Rect.mk 0 0 25 20 ∈ [Rect.mk 0 0 25 20] ∧
    Rect.mk 0 0 25 20 ∉ filteredPlates [Rect.mk 0 0 25 20] := by
  decide

/-- C1 (amended): a detected rectangle is excluded from the filtered
candidates iff its area is at most `min_area` (500) — in particular the
claim's `area < minArea` exclusions, but also area exactly `minArea` —
and is retained iff its area strictly exceeds `min_area`; the retained
rectangles keep their original detection order (the filtered list is a
sublist of the detection list). -/
theorem area_filter_amended (plates : List Rect) :
    (∀ r ∈ plates, r.w * r.h ≤ min_area → r ∉ filteredPlates plates) ∧
    (∀ r ∈ plates, min_area < r.w * r.h → r ∈ filteredPlates plates) ∧
    List.Sublist (filteredPlates plates) plates := by
  refine ⟨?_, ?_, List.filter_sublist plates⟩
  · intro r _ hle hmem
    have h := (List.mem_filter.mp hmem).2
    simp only [passesArea, decide_eq_true_eq] at h
    omega
  · intro r hr hlt
    exact List.mem_filter.mpr ⟨hr, by simp only [passesArea, decide_eq_true_eq]; omega⟩

/-- Witness for `area_filter_amended` at a concrete detection list with
one rectangle at the boundary (area 500) and one above it (area 900). -/
theorem area_filter_amended_witness :
    Rect.mk 0 0 25 20 ∉ filteredPlates [Rect.mk 0 0 25 20, Rect.mk 0 0 30 30] ∧
    Rect.mk 0 0 30 30 ∈ filteredPlates [Rect.mk 0 0 25 20, Rect.mk 0 0 30 30] :=
  ⟨(area_filter_amended [Rect.mk 0 0 25 20, Rect.mk 0 0 30 30]).1
      (Rect.mk 0 0 25 20) (by decide) (by decide),
   (area_filter_amended [Rect.mk 0 0 25 20, Rect.mk 0 0 30 30]).2.1
      (Rect.mk 0 0 30 30) (by decide) (by decide)⟩

theorem tickRoiFrom_none (prevRoi : Option Rect) (plates : List Rect)
    (hno : ∀ r ∈ plates, r.w * r.h ≤ min_area) :
    tickRoiFrom prevRoi plates = none := by
  unfold tickRoiFrom
  induction plates with
  | nil => rfl
  | cons r rs ih =>
    have hfail : passesArea r = false := by
      simp only [passesArea, decide_eq_false_iff_not]
      have := hno r (List.mem_cons_self r rs)
      omega
    simp only [List.foldl_cons, hfail, Bool.false_eq_true, if_false]
    exact ih (fun x hx => hno x (List.mem_cons_of_mem r hx))

/-- C6: in a tick where no detected rectangle passes the area filter the
candidate is `none` — regardless of any candidate of a previous tick,
since `img_roi` is reset at the start of each tick — and pressing the
save key in that tick changes neither the saved files nor the counter. -/
theorem no_candidate_save_noop (st : SessionState) (plates : List Rect)
    (hno : ∀ r ∈ plates, r.w * r.h ≤ min_area) :
    (∀ prevRoi, tickRoiFrom prevRoi plates = none) ∧
    (tickStep st plates keyS).count = st.count ∧
    (tickStep st plates keyS).files = st.files := by
  refine ⟨fun prevRoi => tickRoiFrom_none prevRoi plates hno, ?_⟩
  unfold tickStep
  by_cases hr : st.running
  · rw [if_pos hr, tickRoiFrom_none st.img_roi plates hno]
    simp [keyS, keyQ]
  · rw [if_neg hr]
    exact ⟨rfl, rfl⟩

/-- Witness for `no_candidate_save_noop`: a tick whose only detection has
area 100 produces no candidate, and saving is a no-op. -/
theorem no_candidate_save_noop_witness :
    tickRoiFrom (some (Rect.mk 0 0 30 30)) [Rect.mk 0 0 10 10] = none ∧
    (tickStep initState [Rect.mk 0 0 10 10] keyS).count = initState.count :=
  ⟨(no_candidate_save_noop initState [Rect.mk 0 0 10 10] (by decide)).1
      (some (Rect.mk 0 0 30 30)),
   (no_candidate_save_noop initState [Rect.mk 0 0 10 10] (by decide)).2.1⟩

theorem tickStep_files_inv (st : SessionState) (plates : List Rect) (key : Nat)
    (h : st.files = (List.range st.count).map fileName) :
    (tickStep st plates key).files =
      (List.range (tickStep st plates key).count).map fileName := by
  unfold tickStep
  by_cases hr : st.running
  · rw [if_pos hr]
    by_cases hs : key = keyS ∧ (tickRoiFrom st.img_roi plates).isSome
    · rw [if_pos hs]
      simp [h, List.range_succ]
    · rw [if_neg hs]
      by_cases hq : key = keyQ
      · rw [if_pos hq]; exact h
      · rw [if_neg hq]; exact h
  · rw [if_neg hr]; exact h

theorem runFrom_files_inv (ticks : List (List Rect × Nat)) :
    ∀ st : SessionState, st.files = (List.range st.count).map fileName →
      (runFrom ticks st).files = (List.range (runFrom ticks st).count).map fileName := by
  induction ticks with
  | nil => intro st h; exact h
  | cons t ts ih =>
    intro st h
    simp only [runFrom, List.foldl_cons]
    exact ih (tickStep st t.1 t.2) (tickStep_files_inv st t.1 t.2 h)

/-- C5: the counter starts at 0 and counts exactly the successful saves
(the number of files written equals the counter), and the files written in
a session are `plates/plate_0.jpg, plates/plate_1.jpg, ...` in save order,
so the n-th successful save writes `plates/plate_<n-1>.jpg`; in particular
three saves yield `plate_0.jpg`, `plate_1.jpg`, `plate_2.jpg` in order. -/
theorem session_sequence_numbering (ticks : List (List Rect × Nat)) :
    initState.count = 0 ∧
    (runSession ticks).files = (List.range (runSession ticks).count).map fileName ∧
    (runSession ticks).files.length = (runSession ticks).count ∧
    (runSession [([Rect.mk 0 0 30 30], 115), ([Rect.mk 0 0 30 30], 115),
        ([Rect.mk 0 0 30 30], 115)]).files =
      ["plates/plate_0.jpg", "plates/plate_1.jpg", "plates/plate_2.jpg"] := by
  have h := runFrom_files_inv ticks initState rfl
  refine ⟨rfl, h, ?_, by decide⟩
  show (runFrom ticks initState).files.length = (runFrom ticks initState).count
  rw [h]
  simp

/-! ## Polarity normalization (ocr2.py lines 92-95, tempCodeRunnerFile.py
lines 72-75)

A binary image is a list of 8-bit pixel values. `cv2.countNonZero` counts
the nonzero pixels, `cv2.bitwise_not` maps each value `p` to `255 - p`,
and step 6 inverts the image when `white_pixels < thresh.size / 2` (exact
rational comparison, i.e. `2 * white_pixels < size`). -/

/-- Embeds `cv2.countNonZero`: the number of nonzero pixels. -/
def countNonZero : List Nat → Nat
  | [] => 0
  | p :: rest => (if p ≠ 0 then 1 else 0) + countNonZero rest

/-- Embeds `cv2.bitwise_not` on 8-bit pixels: `p ↦ 255 - p`. -/
def bitwise_not (img : List Nat) : List Nat :=
  img.map (fun p => 255 - p)

/-- Step 6 of the preprocessing pipeline: invert the binary image iff its
white-pixel count is below half the pixel count. -/
def normalizePolarity (img : List Nat) : List Nat :=
  if 2 * countNonZero img < img.length then bitwise_not img else img

theorem countNonZero_not_add (img : List Nat) :
    img.length ≤ countNonZero (bitwise_not img) + countNonZero img := by
  induction img with
  | nil => simp [bitwise_not, countNonZero]
  | cons p rest ih =>
    simp only [bitwise_not, List.map_cons, countNonZero, List.length_cons] at ih ⊢
    split_ifs <;> omega

theorem normalizePolarity_no_second_invert (img : List Nat) :
    ¬ 2 * countNonZero (normalizePolarity img) < (normalizePolarity img).length := by
  unfold normalizePolarity
  by_cases h : 2 * countNonZero img < img.length
  · rw [if_pos h]
    have hlen : (bitwise_not img).length = img.length := by
      simp [bitwise_not]
    have hadd := countNonZero_not_add img
    omega
  · rw [if_neg h]
    exact h

/-- C4: the polarity step inverts the binary image iff its white-pixel
count is below half the total pixel count; an image whose white-pixel
count is at least half the total is left unchanged, and the step is
idempotent: applying it twice equals applying it once. -/
theorem normalizePolarity_spec (img : List Nat) :
    (2 * countNonZero img < img.length →
      normalizePolarity img = bitwise_not img) ∧
    (¬ 2 * countNonZero img < img.length → normalizePolarity img = img) ∧
    normalizePolarity (normalizePolarity img) = normalizePolarity img := by
  refine ⟨fun h => by simp [normalizePolarity, h],
    fun h => by simp [normalizePolarity, h], ?_⟩
  show (if 2 * countNonZero (normalizePolarity img) < (normalizePolarity img).length
      then bitwise_not (normalizePolarity img) else normalizePolarity img) =
    normalizePolarity img
  rw [if_neg (normalizePolarity_no_second_invert img)]

/-- Witness for `normalizePolarity_spec`: an image with two white pixels
out of three (already-correct polarity) is unchanged, and an image with
one white pixel out of three is inverted. -/
theorem normalizePolarity_spec_witness :
    normalizePolarity [255, 255, 0] = [255, 255, 0] ∧
    normalizePolarity [0, 0, 255] = bitwise_not [0, 0, 255] :=
  ⟨(normalizePolarity_spec [255, 255, 0]).2.1 (by decide),
   (normalizePolarity_spec [0, 0, 255]).1 (by decide)⟩

/-! ## The record store and the batch pipeline (ocr2.py lines 17-22 and
62-156)

The spreadsheet is modelled as its table of rows (`List (List String)`,
header row included); the file-system slot holding it is an
`Option (List (List String))`, where `none` is an absent file. Fallible
external operations (the OCR invocation, the store read) are modelled by
an `Except` input and a failure flag, mirroring the `try/except`
boundaries of the source. -/

/-- The header row `['Date', 'Time', 'Plate Number']` (ocr2.py line 20). -/
def plateHeader : List String := ["Date", "Time", "Plate Number"]

/-- Function `initialize_excel` (ocr2.py lines 17-22): if the store file does not
exist, write a table holding only the header row; otherwise touch
nothing. -/
def initialize_excel (store : Option (List (List String))) :
    Option (List (List String)) :=
  match store with
  | none => some [plateHeader]
  | some t => some t

/-- Function `extract_plate_text` (ocr2.py lines 62-125): the image read, the
preprocessing and the OCR invocation are fallible; the whole body is
wrapped in `try/except`, so the function takes the outcome of that
fallible computation. On success the raw OCR string has newlines and
spaces removed and is passed to `extract_plate_pattern`; on any exception
the function returns `None`. -/
def extract_plate_text (ocrResult : Except String (List Char)) :
    Option (List Char) :=
  match ocrResult with
  | Except.error _ => none
  | Except.ok raw =>
      extract_plate_pattern (raw.filter (fun ch => ch != '\n' && ch != ' '))

/-- Function `save_to_excel` (ocr2.py lines 128-141): read the whole table, append
the row `[date, time, plate]`, rewrite the file; the body is wrapped in
`try/except`, so a failure of the read/append/rewrite (modelled by the
`readFails` flag, e.g. a malformed store file) is caught and the store is
left unchanged. -/
def save_to_excel (readFails : Bool) (table : List (List String))
    (dateStr timeStr plate : String) : List (List String) :=
  if readFails then table else table ++ [[dateStr, timeStr, plate]]

/-- Function `main` (ocr2.py lines 144-156) for one batch run, returning the final
store content: initialize the store, pick the latest image (`none` when
the folder holds no image), extract the plate text, and append a row only
when extraction produced a plate string (the append reads the
just-initialized store, so it succeeds). -/
def main (store : Option (List (List String)))
    (latestImage : Option (Except String (List Char)))
    (dateStr timeStr : String) : Option (List (List String)) :=
  match initialize_excel store with
  | none => none
  | some table =>
    match latestImage with
    | none => some table
    | some ocr =>
      match extract_plate_text ocr with
      | none => some table
      | some plate =>
          some (save_to_excel false table dateStr timeStr (String.mk plate))

/-- C7: record-store initialization is idempotent: an absent store is
created holding exactly the header row `Date, Time, Plate Number`, an
existing store is returned untouched, and a second initialization equals
the first. -/
theorem initialize_excel_idempotent :
    initialize_excel none = some [plateHeader] ∧
    (∀ t, initialize_excel (some t) = some t) ∧
    ∀ store, initialize_excel (initialize_excel store) = initialize_excel store := by
  refine ⟨rfl, fun t => rfl, fun store => ?_⟩
  cases store <;> rfl

/-- C8: exceptions are caught at the boundary of each operation: a failure
anywhere in the OCR extraction makes `extract_plate_text` return `None`,
and a failure in the store read/append/rewrite leaves the table unchanged;
both embedded operations are total functions, so no exception reaches the
caller. -/
theorem exception_boundaries (e : String) (table : List (List String))
    (dateStr timeStr plate : String) :
    extract_plate_text (Except.error e) = none ∧
    save_to_excel true table dateStr timeStr plate = table :=
  ⟨rfl, rfl⟩

/-- C9: a batch run appends a record row exactly when extraction returns a
plate string: with no image in the folder, or with extraction returning
`None`, the store after the run equals the store after initialization (no
row appended) and the run ends normally; with extraction returning a
plate, exactly one row `[date, time, plate]` is appended to the
initialized table. -/
theorem main_appends_iff_extracted (store : Option (List (List String)))
    (latestImage : Option (Except String (List Char))) (dateStr timeStr : String) :
    (latestImage = none →
      main store latestImage dateStr timeStr = initialize_excel store) ∧
    (∀ ocr, latestImage = some ocr → extract_plate_text ocr = none →
      main store latestImage dateStr timeStr = initialize_excel store) ∧
    (∀ ocr plate, latestImage = some ocr → extract_plate_text ocr = some plate →
      ∀ table, initialize_excel store = some table →
        main store latestImage dateStr timeStr =
          some (table ++ [[dateStr, timeStr, String.mk plate]])) := by
  obtain ⟨table0, htable0⟩ : ∃ t, initialize_excel store = some t := by
    cases store with
    | none => exact ⟨[plateHeader], rfl⟩
    | some t => exact ⟨t, rfl⟩
  refine ⟨?_, ?_, ?_⟩
  · intro h
    subst h
    simp [main, htable0]
  · intro ocr h hext
    subst h
    simp [main, htable0, hext]
  · intro ocr plate h hext table htable
    subst h
    rw [htable0] at htable
    simp only [Option.some.injEq] at htable
    subst htable
    simp [main, htable0, hext, save_to_excel]

/-- Witness for `main_appends_iff_extracted`: with an absent store, a run
with no image leaves the header-only store, and a run whose OCR output is
`MH15GF5187` appends exactly that row. -/
theorem main_appends_iff_extracted_witness :
    main none none "2025-01-01" "12:00:00" = initialize_excel none ∧
    main none (some (Except.ok "MH15GF5187".data)) "2025-01-01" "12:00:00" =
      some ([plateHeader] ++ [["2025-01-01", "12:00:00", String.mk "MH15GF5187".data]]) :=
  ⟨(main_appends_iff_extracted none none "2025-01-01" "12:00:00").1 rfl,
   (main_appends_iff_extracted none (some (Except.ok "MH15GF5187".data))
      "2025-01-01" "12:00:00").2.2 (Except.ok "MH15GF5187".data) "MH15GF5187".data
      rfl (by decide) [plateHeader] rfl⟩

end NumberPlate
